/-
Verification of the typo-tolerant city-name resolution, duplicate-entity
detection, review aggregation and review-submission guard of the
KnowTheTips web application.

The JavaScript/TypeScript source is shallowly embedded: a JS string is a
list of UTF-16 code units (`JStr := List Nat`); `String.prototype.toLowerCase`
/ `toUpperCase` are modelled by the ASCII case maps (the code only
manipulates ASCII city/venue text, and the regexes involved are the ASCII
classes `[a-z]`, `\b`, `\s`); JS `number` fields coming from the backend are
modelled by `JsNum` (a finite rational or a non-finite marker) and nullable
fields by `Option`.  Backend (supabase) calls are modelled by explicit
stores (`List VenueRow`) plus a trace of issued operations (`DbOp`), so that
read-only and call-order properties are statable.
-/
import Mathlib

set_option maxHeartbeats 1000000
set_option maxRecDepth 20000

namespace KT

/-- A JS string: a list of UTF-16 code units (each unit a `Nat`). -/
abbrev JStr := List Nat

/-- Embed a Lean string literal as a `JStr` (code points), used only to write
concrete test inputs. -/
def jstr (s : String) : JStr := s.data.map Char.toNat

/-- ASCII model of `String.prototype.toLowerCase`. -/
def lowerChar (c : Nat) : Nat := if 65 ≤ c ∧ c ≤ 90 then c + 32 else c

/-- ASCII model of `String.prototype.toUpperCase` (applied char-wise by the
`titleCase` replacement callback). -/
def upperChar (c : Nat) : Nat := if 97 ≤ c ∧ c ≤ 122 then c - 32 else c

/-- lower-case a whole string (`s.toLowerCase()`). -/
def lowerStr (s : JStr) : JStr := s.map lowerChar

/-- The characters matched by the regex class `\s` (ASCII part). -/
def isJsWs (c : Nat) : Bool := c = 32 ∨ c = 9 ∨ c = 10 ∨ c = 11 ∨ c = 12 ∨ c = 13

/-- `s.replace(/\s+/g, " ")`, scanning left to right: every maximal run of
whitespace becomes a single space.  The boolean records whether the scanner is
inside a whitespace run whose replacement space was already emitted. -/
def collapseWsAux : Bool → JStr → JStr
  | _, [] => []
  | inRun, c :: rest =>
    if isJsWs c then
      if inRun then collapseWsAux true rest else 32 :: collapseWsAux true rest
    else c :: collapseWsAux false rest

/-- `s.replace(/\s+/g, " ")`. -/
def collapseWs (s : JStr) : JStr := collapseWsAux false s

/-- `s.trim()`: strip leading and trailing whitespace. -/
def jsTrim (s : JStr) : JStr :=
  ((s.dropWhile isJsWs).reverse.dropWhile isJsWs).reverse

/-- `normalizeSpaces` from src/app/page.tsx:
`s.replace(/\s+/g, " ").trim()`. -/
def normalizeSpaces (s : JStr) : JStr := jsTrim (collapseWs s)

/-- The regex class `\w` = `[A-Za-z0-9_]`. -/
def isWordChar (c : Nat) : Bool :=
  (48 ≤ c ∧ c ≤ 57) ∨ (65 ≤ c ∧ c ≤ 90) ∨ (97 ≤ c ∧ c ≤ 122) ∨ c = 95

/-- `[a-z]`. -/
def isLowerAlpha (c : Nat) : Bool := 97 ≤ c ∧ c ≤ 122

/-- The replacement pass `cleaned.replace(/\b([a-z])/g, m => m.toUpperCase())`:
a lowercase ASCII letter is upper-cased exactly when the previous character is
not a `\w` character (the boolean argument carries the word-char-ness of the
previous character; at the start of the string it is `false`). -/
def capAux : Bool → JStr → JStr
  | _, [] => []
  | prevW, c :: rest =>
    (if ¬prevW ∧ isLowerAlpha c then upperChar c else c) :: capAux (isWordChar c) rest

/-- `titleCase` from src/app/page.tsx:
`normalizeSpaces(s).toLowerCase().replace(/\b([a-z])/g, m => m.toUpperCase())`. -/
def titleCase (s : JStr) : JStr := capAux false (lowerStr (normalizeSpaces s))

/-- `normalizeCityForStorage` from src/app/page.tsx. -/
def normalizeCityForStorage (city : JStr) : JStr := titleCase city

/-- `normKey` from src/app/page.tsx: `normalizeSpaces(s).toLowerCase()`. -/
def normKey (s : JStr) : JStr := lowerStr (normalizeSpaces s)

/-- Entry `dp[i][j]` of the dynamic-programming table of `levenshtein`
(src/app/page.tsx): `dp[i][0] = i`, `dp[0][j] = j`, and
`dp[i][j] = min(dp[i-1][j] + 1, dp[i][j-1] + 1, dp[i-1][j-1] + cost)` with
`cost = (s[i-1] === t[j-1] ? 0 : 1)`.  The source fills the table with two
nested loops in increasing `i`, `j`; each entry depends only on entries with
smaller indices, so the table is equivalently given by this recursion. -/
def levTab (s t : JStr) : Nat → Nat → Nat
  | 0, j => j
  | i + 1, 0 => i + 1
  | i + 1, j + 1 =>
    min (min (levTab s t i (j + 1) + 1) (levTab s t (i + 1) j + 1))
      (levTab s t i j + (if s.getD i 0 = t.getD j 0 then 0 else 1))

/-- Inner loop of `levenshtein` (src/app/page.tsx): compute the entries
`dp[i][j]` for `j = j0+1 .. n` of row `i`, left to right.  `sc` is `s[i-1]`,
the first argument list is `t.drop j0`, `prev` is
`[dp[i-1][j0], dp[i-1][j0+1], ..., dp[i-1][n]]` (so its head is the diagonal
neighbour and the next entry the upper neighbour) and `left` is `dp[i][j0]`. -/
def rowLoop (sc : Nat) : JStr → List Nat → Nat → List Nat
  | [], _, _ => []
  | _ :: _, [], _ => []
  | _ :: _, [_], _ => []
  | b :: tRest, diag :: up :: prevRest, left =>
    let cell := min (min (up + 1) (left + 1)) (diag + (if sc = b then 0 else 1))
    cell :: rowLoop sc tRest (up :: prevRest) cell

/-- Outer loop of `levenshtein`: starting from row `i0` (`prev` is full row
`i0`, i.e. `[dp[i0][0], ..., dp[i0][n]]`), process the remaining characters
`s.drop i0` of `s`, producing the final row `[dp[m][0], ..., dp[m][n]]`. -/
def levLoop (t : JStr) : JStr → Nat → List Nat → List Nat
  | [], _, prev => prev
  | a :: sRest, i, prev => levLoop t sRest (i + 1) ((i + 1) :: rowLoop a t prev (i + 1))

/-- `levenshtein` from src/app/page.tsx: lower-case both inputs, handle the
empty cases, then fill the table row by row (row 0 is `[0, 1, ..., n]`) and
return `dp[m][n]`, the last entry of the last row. -/
def levenshtein (a b : JStr) : Nat :=
  let s := lowerStr a
  let t := lowerStr b
  if s.length = 0 then t.length
  else if t.length = 0 then s.length
  else (levLoop t s 0 (List.range (t.length + 1))).getLastD 0

/-- The suffix-based edit-distance recurrence (strings consumed from the
front); `levTab s t i j` will be shown to equal `levRec` on the reversed
`i`- and `j`-prefixes. -/
def levRec : JStr → JStr → Nat
  | [], t => t.length
  | a :: s, [] => (a :: s).length
  | a :: s, b :: t =>
    min (min (levRec s (b :: t) + 1) (levRec (a :: s) t + 1))
      (levRec s t + if a = b then 0 else 1)
termination_by s t => s.length + t.length
decreasing_by all_goals simp_arith

theorem levRec_nil_right (s : JStr) : levRec s [] = s.length := by
  cases s <;> simp [levRec]

theorem drop_cons_facts {l : JStr} {n : Nat} {b : Nat} {rest : JStr}
    (h : l.drop n = b :: rest) : l.getD n 0 = b ∧ l.drop (n + 1) = rest := by
  have hn : n < l.length := by
    by_contra hc
    push_neg at hc
    rw [List.drop_eq_nil_of_le hc] at h
    exact absurd h (by simp)
  rw [List.drop_eq_getElem_cons hn] at h
  obtain ⟨h1, h2⟩ := List.cons.injEq .. ▸ h
  refine ⟨?_, h2⟩
  rw [List.getD_eq_getElem?_getD, List.getElem?_eq_getElem hn, h1]
  rfl

theorem levTab_zero_left (s t : JStr) (j : Nat) : levTab s t 0 j = j := by
  rw [levTab]

theorem levTab_succ_zero (s t : JStr) (i : Nat) : levTab s t (i + 1) 0 = i + 1 := by
  rw [levTab]

theorem levTab_succ_succ (s t : JStr) (i j : Nat) :
    levTab s t (i + 1) (j + 1)
      = min (min (levTab s t i (j + 1) + 1) (levTab s t (i + 1) j + 1))
          (levTab s t i j + (if s.getD i 0 = t.getD j 0 then 0 else 1)) := by
  rw [levTab]

theorem rowLoop_spec (s t : JStr) :
    ∀ (tl : JStr) (j0 i : Nat), t.drop j0 = tl → i < s.length →
      rowLoop (s.getD i 0) tl
          ((List.range' j0 (tl.length + 1)).map (levTab s t i))
          (levTab s t (i + 1) j0)
        = (List.range' (j0 + 1) tl.length).map (levTab s t (i + 1)) := by
  intro tl
  induction tl with
  | nil => intro j0 i _ _; simp [rowLoop]
  | cons b tRest ih =>
    intro j0 i hdrop hi
    obtain ⟨hb, hdrop'⟩ := drop_cons_facts hdrop
    have hrange : List.range' j0 (tRest.length + 1 + 1)
        = j0 :: (j0 + 1) :: List.range' (j0 + 2) tRest.length := by
      rw [List.range'_succ, List.range'_succ]
    simp only [List.length_cons, hrange, List.map_cons]
    rw [rowLoop]
    have hcell : min (min (levTab s t i (j0 + 1) + 1) (levTab s t (i + 1) j0 + 1))
        (levTab s t i j0 + (if s.getD i 0 = b then 0 else 1))
        = levTab s t (i + 1) (j0 + 1) := by
      rw [levTab_succ_succ, hb]
    rw [hcell]
    have hrest := ih (j0 + 1) i hdrop' hi
    have hrange2 : List.range' (j0 + 1) (tRest.length + 1)
        = (j0 + 1) :: List.range' (j0 + 2) tRest.length := by
      rw [List.range'_succ]
    rw [hrange2, List.map_cons] at hrest
    rw [hrest]
    rw [List.range'_succ, List.map_cons]

theorem levLoop_spec (s t : JStr) :
    ∀ (sl : JStr) (i0 : Nat), s.drop i0 = sl →
      levLoop t sl i0 ((List.range' 0 (t.length + 1)).map (levTab s t i0))
        = (List.range' 0 (t.length + 1)).map (levTab s t (i0 + sl.length)) := by
  intro sl
  induction sl with
  | nil => intro i0 _; simp [levLoop]
  | cons a sRest ih =>
    intro i0 hdrop
    have hi0 : i0 < s.length := by
      by_contra hc
      push_neg at hc
      rw [List.drop_eq_nil_of_le hc] at hdrop
      exact absurd hdrop (by simp)
    obtain ⟨ha, hdrop'⟩ := drop_cons_facts hdrop
    rw [levLoop]
    have h0 : levTab s t (i0 + 1) 0 = i0 + 1 := levTab_succ_zero s t i0
    have hrow := rowLoop_spec s t t 0 i0 (by simp) hi0
    rw [ha, h0] at hrow
    have hprev : List.range' 0 (t.length + 1)
        = 0 :: List.range' 1 t.length := List.range'_succ 0 t.length 1 ▸ rfl
    have hnext : (i0 + 1) :: rowLoop a t ((List.range' 0 (t.length + 1)).map (levTab s t i0)) (i0 + 1)
        = (List.range' 0 (t.length + 1)).map (levTab s t (i0 + 1)) := by
      conv_rhs => rw [hprev]
      rw [List.map_cons, h0, ← hrow]
    rw [hnext, ih (i0 + 1) hdrop']
    have harith : i0 + 1 + sRest.length = i0 + (a :: sRest).length := by
      simp only [List.length_cons]
      omega
    rw [harith]

/-- The row-by-row loop value agrees with the table recurrence. -/
theorem levenshtein_eq_levTab (a b : JStr) :
    levenshtein a b = levTab (lowerStr a) (lowerStr b) (lowerStr a).length (lowerStr b).length := by
  set s := lowerStr a with hs
  set t := lowerStr b with ht
  unfold levenshtein
  rw [← hs, ← ht]
  by_cases hm : s.length = 0
  · rw [if_pos hm, hm, levTab_zero_left]
  · by_cases hn : t.length = 0
    · rw [if_neg hm, if_pos hn, hn]
      obtain ⟨k, hk⟩ : ∃ k, s.length = k + 1 := ⟨s.length - 1, by omega⟩
      rw [hk, levTab_succ_zero]
    · rw [if_neg hm, if_neg hn]
      have h0 : List.range (t.length + 1) = (List.range' 0 (t.length + 1)).map (levTab s t 0) := by
        rw [List.range_eq_range']
        symm
        calc (List.range' 0 (t.length + 1)).map (levTab s t 0)
            = (List.range' 0 (t.length + 1)).map id :=
              List.map_congr_left (fun j _ => levTab_zero_left s t j)
          _ = List.range' 0 (t.length + 1) := List.map_id _
      have hloop := levLoop_spec s t s 0 (by simp)
      rw [Nat.zero_add] at hloop
      rw [h0, hloop]
      rw [show List.range' 0 (t.length + 1) = List.range' 0 t.length ++ [t.length] from by
        simpa using (List.range'_concat 0 t.length :
          List.range' 0 (t.length + 1) = _)]
      rw [List.map_append, List.map_cons, List.map_nil, List.getLastD_concat]

theorem levTab_eq_levRec (s t : JStr) :
    ∀ i, i ≤ s.length → ∀ j, j ≤ t.length →
      levTab s t i j = levRec ((s.take i).reverse) ((t.take j).reverse) := by
  intro i
  induction i with
  | zero =>
    intro _ j hj
    rw [levTab_zero_left]
    simp only [List.take_zero, List.reverse_nil]
    rw [levRec]
    simp [Nat.min_eq_left hj]
  | succ i ihi =>
    intro hi j
    induction j with
    | zero =>
      intro _
      rw [levTab_succ_zero]
      simp only [List.take_zero, List.reverse_nil, levRec_nil_right]
      simp [Nat.min_eq_left hi]
    | succ j ihj =>
      intro hj
      have hi' : i < s.length := by omega
      have hj' : j < t.length := by omega
      have hstake : (s.take (i + 1)).reverse = s.getD i 0 :: (s.take i).reverse := by
        rw [List.take_succ, List.getElem?_eq_getElem hi']
        simp [List.getD_eq_getElem?_getD, List.getElem?_eq_getElem hi']
      have httake : (t.take (j + 1)).reverse = t.getD j 0 :: (t.take j).reverse := by
        rw [List.take_succ, List.getElem?_eq_getElem hj']
        simp [List.getD_eq_getElem?_getD, List.getElem?_eq_getElem hj']
      rw [levTab_succ_succ, hstake, httake, levRec]
      rw [ihi (by omega) (j + 1) hj, ihi (by omega) j (by omega), ihj (by omega)]
      rw [httake, hstake]

/-- `levenshtein` computes the suffix recurrence on the reversed lower-cased
inputs. -/
theorem levenshtein_eq_levRec (a b : JStr) :
    levenshtein a b = levRec (lowerStr a).reverse (lowerStr b).reverse := by
  rw [levenshtein_eq_levTab,
    levTab_eq_levRec _ _ _ (Nat.le_refl _) _ (Nat.le_refl _),
    List.take_length, List.take_length]

/-- `Edits s t n`: the strings `s` and `t` are alignable using exactly `n`
single-character edit operations (substitutions, deletions, insertions);
matched characters are free.  The minimum `n` with `Edits s t n` is the
classic edit distance. -/
inductive Edits : JStr → JStr → Nat → Prop
  | nil : Edits [] [] 0
  | keep (c : Nat) {s t : JStr} {n : Nat} : Edits s t n → Edits (c :: s) (c :: t) n
  | subst (c d : Nat) {s t : JStr} {n : Nat} : Edits s t n → Edits (c :: s) (d :: t) (n + 1)
  | del (c : Nat) {s t : JStr} {n : Nat} : Edits s t n → Edits (c :: s) t (n + 1)
  | ins (d : Nat) {s t : JStr} {n : Nat} : Edits s t n → Edits s (d :: t) (n + 1)

theorem edits_nil_left (t : JStr) : Edits [] t t.length := by
  induction t with
  | nil => exact Edits.nil
  | cons d t ih => exact Edits.ins d ih

theorem edits_nil_right (s : JStr) : Edits s [] s.length := by
  induction s with
  | nil => exact Edits.nil
  | cons c s ih => exact Edits.del c ih

/-- `levRec` is a lower bound for any edit alignment. -/
theorem levRec_le_edits {s t : JStr} {n : Nat} (h : Edits s t n) : levRec s t ≤ n := by
  induction h with
  | nil => simp [levRec]
  | keep c h ih =>
    rw [levRec]
    refine le_trans (min_le_right _ _) ?_
    simpa using ih
  | subst c d h ih =>
    rw [levRec]
    refine le_trans (min_le_right _ _) ?_
    have hif : (if c = d then 0 else 1) ≤ 1 := by split <;> omega
    omega
  | del c h ih =>
    rename_i s t n
    cases t with
    | nil =>
      rw [levRec_nil_right] at ih ⊢
      simp only [List.length_cons]
      omega
    | cons d tRest =>
      rw [levRec]
      refine le_trans (le_trans (min_le_left _ _) (min_le_left _ _)) ?_
      omega
  | ins d h ih =>
    rename_i s t n
    cases s with
    | nil =>
      have h1 : levRec [] (d :: t) = t.length + 1 := by rw [levRec]; rfl
      have h2 : levRec [] t = t.length := by rw [levRec]
      rw [h2] at ih
      rw [h1]
      omega
    | cons c sRest =>
      rw [levRec]
      refine le_trans (le_trans (min_le_left _ _) (min_le_right _ _)) ?_
      omega

/-- The value of `levRec` is attained by some alignment. -/
theorem edits_levRec : ∀ s t : JStr, Edits s t (levRec s t) := by
  intro s
  induction s with
  | nil =>
    intro t
    have h : levRec [] t = t.length := by rw [levRec]
    rw [h]
    exact edits_nil_left t
  | cons a sRest ihs =>
    intro t
    induction t with
    | nil =>
      rw [levRec_nil_right]
      exact edits_nil_right _
    | cons b tRest iht =>
      rw [levRec]
      rcases min_cases (min (levRec sRest (b :: tRest) + 1) (levRec (a :: sRest) tRest + 1))
          (levRec sRest tRest + if a = b then 0 else 1) with ⟨hmin, _⟩ | ⟨hmin, _⟩
      · rw [hmin]
        rcases min_cases (levRec sRest (b :: tRest) + 1) (levRec (a :: sRest) tRest + 1) with
          ⟨hm2, _⟩ | ⟨hm2, _⟩
        · rw [hm2]
          exact Edits.del a (ihs (b :: tRest))
        · rw [hm2]
          exact Edits.ins b iht
      · rw [hmin]
        by_cases hab : a = b
        · subst hab
          simp only [if_pos rfl, Nat.add_zero]
          exact Edits.keep a (ihs tRest)
        · simp only [if_neg hab]
          exact Edits.subst a b (ihs tRest)

/-- The edit relation is symmetric (deletions and insertions swap roles). -/
theorem edits_symm {s t : JStr} {n : Nat} (h : Edits s t n) : Edits t s n := by
  induction h with
  | nil => exact Edits.nil
  | keep c _ ih => exact Edits.keep c ih
  | subst c d _ ih => exact Edits.subst d c ih
  | del c _ ih => exact Edits.ins c ih
  | ins d _ ih => exact Edits.del d ih

/-- Alignments compose by concatenation. -/
theorem edits_append {s t u v : JStr} {n m : Nat}
    (h1 : Edits s t n) (h2 : Edits u v m) : Edits (s ++ u) (t ++ v) (n + m) := by
  induction h1 with
  | nil => simpa using h2
  | keep c _ ih => exact Edits.keep c ih
  | subst c d _ ih =>
    have := Edits.subst c d ih
    simpa [Nat.add_right_comm] using this
  | del c _ ih =>
    have := Edits.del c ih
    simpa [Nat.add_right_comm] using this
  | ins d _ ih =>
    have := Edits.ins d ih
    simpa [Nat.add_right_comm] using this

/-- The edit relation is invariant under reversing both strings. -/
theorem edits_reverse {s t : JStr} {n : Nat} (h : Edits s t n) :
    Edits s.reverse t.reverse n := by
  induction h with
  | nil => exact Edits.nil
  | keep c _ ih =>
    simp only [List.reverse_cons]
    simpa using edits_append ih (Edits.keep c Edits.nil)
  | subst c d _ ih =>
    simp only [List.reverse_cons]
    simpa using edits_append ih (Edits.subst c d Edits.nil)
  | del c _ ih =>
    simp only [List.reverse_cons]
    simpa using edits_append ih (Edits.del c Edits.nil)
  | ins d _ ih =>
    simp only [List.reverse_cons]
    simpa using edits_append ih (Edits.ins d Edits.nil)

theorem edits_reverse_iff {s t : JStr} {n : Nat} :
    Edits s.reverse t.reverse n ↔ Edits s t n := by
  constructor
  · intro h
    simpa using edits_reverse h
  · exact edits_reverse

/-- `levenshtein a b` is attained by an alignment of the lower-cased inputs. -/
theorem edits_levenshtein (a b : JStr) :
    Edits (lowerStr a) (lowerStr b) (levenshtein a b) := by
  rw [levenshtein_eq_levRec]
  exact edits_reverse_iff.mp (edits_levRec _ _)

/-- `levenshtein a b` is a lower bound for every alignment of the lower-cased
inputs. -/
theorem levenshtein_le_edits {a b : JStr} {n : Nat}
    (h : Edits (lowerStr a) (lowerStr b) n) : levenshtein a b ≤ n := by
  rw [levenshtein_eq_levRec]
  exact levRec_le_edits (edits_reverse h)

theorem lowerStr_length (x : JStr) : (lowerStr x).length = x.length :=
  List.length_map x lowerChar

/-- C3: `levenshtein a b` equals the classic edit distance between the
lower-cased forms of `a` and `b`: it is the least `n` (a non-negative
integer) such that the lower-cased strings can be transformed into one
another by `n` single-character insertions, deletions or substitutions; and
when either input is empty it equals the other input's length. -/
theorem levenshtein_classic_edit_distance (a b : JStr) :
    IsLeast {n : Nat | Edits (lowerStr a) (lowerStr b) n} (levenshtein a b) ∧
    (a = [] → levenshtein a b = b.length) ∧
    (b = [] → levenshtein a b = a.length) := by
  refine ⟨⟨edits_levenshtein a b, fun n hn => levenshtein_le_edits hn⟩, ?_, ?_⟩
  · intro h
    subst h
    show levenshtein [] b = b.length
    unfold levenshtein
    simp [lowerStr]
  · intro h
    subst h
    show levenshtein a [] = a.length
    unfold levenshtein
    by_cases hm : (lowerStr a).length = 0
    · rw [if_pos hm]
      simp only [lowerStr, List.length_map] at hm
      simp [lowerStr, hm]
    · rw [if_neg hm]
      simp [lowerStr]

theorem levenshtein_classic_edit_distance_witness :
    levenshtein (jstr "ab") (jstr "b") ≤ 1 ∧ levenshtein [] (jstr "ok") = 2 :=
  ⟨(levenshtein_classic_edit_distance (jstr "ab") (jstr "b")).1.2
      (Edits.del 97 (Edits.keep 98 Edits.nil)),
    (levenshtein_classic_edit_distance [] (jstr "ok")).2.1 rfl⟩

/-- C7: the edit-distance function is symmetric in its two arguments. -/
theorem levenshtein_symm (a b : JStr) : levenshtein a b = levenshtein b a :=
  Nat.le_antisymm (levenshtein_le_edits (edits_symm (edits_levenshtein b a)))
    (levenshtein_le_edits (edits_symm (edits_levenshtein a b)))

theorem ws_lowerChar (c : Nat) : isJsWs (lowerChar c) = isJsWs c := by
  unfold lowerChar isJsWs
  split
  · rename_i h
    simp only [decide_eq_decide]
    omega
  · rfl

theorem ws_upperChar (c : Nat) : isJsWs (upperChar c) = isJsWs c := by
  unfold upperChar isJsWs
  split
  · rename_i h
    simp only [decide_eq_decide]
    omega
  · rfl

theorem lowerChar_of_ws {c : Nat} (h : isJsWs c = true) : lowerChar c = c := by
  unfold isJsWs at h
  unfold lowerChar
  rw [decide_eq_true_eq] at h
  rw [if_neg (by omega)]

theorem lowerChar_lowerChar (c : Nat) : lowerChar (lowerChar c) = lowerChar c := by
  unfold lowerChar
  split
  · rename_i h
    rw [if_neg (by omega)]
  · rfl

theorem lowerChar_upperChar_of_lowerAlpha {c : Nat} (h : isLowerAlpha c = true) :
    lowerChar (upperChar c) = c := by
  unfold isLowerAlpha at h
  rw [decide_eq_true_eq] at h
  unfold upperChar
  rw [if_pos h]
  unfold lowerChar
  rw [if_pos (by omega)]
  omega

theorem lowerChar_of_lowerAlpha {c : Nat} (h : isLowerAlpha c = true) :
    lowerChar c = c := by
  unfold isLowerAlpha at h
  rw [decide_eq_true_eq] at h
  unfold lowerChar
  rw [if_neg (by omega)]

/-- Checker for the shape of `normalizeSpaces` output: every whitespace
character is a single space (code 32) and no whitespace character follows a
whitespace character; the flag is `true` when the previous position was
whitespace (or the string start, so a leading space is also rejected). -/
def wsNormAux : Bool → JStr → Bool
  | _, [] => true
  | prevWs, c :: rest =>
    if isJsWs c then (!prevWs) && (c == 32) && wsNormAux true rest
    else wsNormAux false rest

/-- Full normal form of `normalizeSpaces` output: interior shape plus no
trailing whitespace. -/
def WsNormal (l : JStr) : Prop :=
  wsNormAux true l = true ∧ ∀ c, l.getLast? = some c → isJsWs c = false

theorem collapseWsAux_id :
    ∀ l : JStr, (wsNormAux true l = true → ∀ b, collapseWsAux b l = l) ∧
      (wsNormAux false l = true → collapseWsAux false l = l) := by
  intro l
  induction l with
  | nil => exact ⟨fun _ _ => rfl, fun _ => rfl⟩
  | cons c rest ih =>
    constructor
    · intro h b
      rw [wsNormAux] at h
      by_cases hws : isJsWs c = true
      · rw [if_pos hws] at h
        simp at h
      · rw [if_neg hws] at h
        rw [collapseWsAux, if_neg hws, ih.2 h]
    · intro h
      rw [wsNormAux] at h
      by_cases hws : isJsWs c = true
      · rw [if_pos hws] at h
        simp only [Bool.not_false, Bool.true_and, Bool.and_eq_true, beq_iff_eq] at h
        obtain ⟨hc32, hrest⟩ := h
        rw [collapseWsAux, if_pos hws, hc32, ih.1 hrest true]
        simp
      · rw [if_neg hws] at h
        rw [collapseWsAux, if_neg hws, ih.2 h]

theorem dropWhile_eq_self_of_head {l : JStr}
    (h : ∀ c, l.head? = some c → isJsWs c = false) : l.dropWhile isJsWs = l := by
  cases l with
  | nil => rfl
  | cons c rest =>
    rw [List.dropWhile_cons, if_neg]
    rw [h c rfl]
    simp

theorem wsNormAux_true_head {l : JStr} (h : wsNormAux true l = true) :
    ∀ c, l.head? = some c → isJsWs c = false := by
  intro c hc
  cases l with
  | nil => simp at hc
  | cons d rest =>
    have hdc : d = c := by simpa using hc
    subst hdc
    rw [wsNormAux] at h
    by_cases hws : isJsWs d = true
    · rw [if_pos hws] at h
      simp at h
    · simpa using hws

theorem jsTrim_eq_self_of_wsNormal {l : JStr} (h : WsNormal l) : jsTrim l = l := by
  obtain ⟨h1, h2⟩ := h
  unfold jsTrim
  rw [dropWhile_eq_self_of_head (wsNormAux_true_head h1)]
  rw [dropWhile_eq_self_of_head, List.reverse_reverse]
  intro c hc
  rw [List.head?_reverse] at hc
  exact h2 c hc

/-- `normalizeSpaces` is the identity on strings already in normal form. -/
theorem normalizeSpaces_eq_self_of_wsNormal {l : JStr} (h : WsNormal l) :
    normalizeSpaces l = l := by
  unfold normalizeSpaces collapseWs
  rw [(collapseWsAux_id l).1 h.1 false, jsTrim_eq_self_of_wsNormal h]

theorem wsNormAux_collapseWsAux : ∀ (l : JStr) (b : Bool),
    wsNormAux b (collapseWsAux b l) = true := by
  intro l
  induction l with
  | nil => intro b; rfl
  | cons c rest ih =>
    intro b
    by_cases hws : isJsWs c = true
    · rw [collapseWsAux, if_pos hws]
      cases b with
      | true => simpa using ih true
      | false =>
        simp only [Bool.false_eq_true, if_false]
        rw [wsNormAux, if_pos (by rfl)]
        simpa using ih true
    · rw [collapseWsAux, if_neg hws, wsNormAux, if_neg hws]
      exact ih false

theorem wsNormAux_dropWhile {l : JStr} (h : wsNormAux false l = true) :
    wsNormAux true (l.dropWhile isJsWs) = true := by
  cases l with
  | nil => rfl
  | cons c rest =>
    rw [wsNormAux] at h
    by_cases hws : isJsWs c = true
    · rw [if_pos hws] at h
      simp only [Bool.not_false, Bool.true_and, Bool.and_eq_true, beq_iff_eq] at h
      obtain ⟨_, hrest⟩ := h
      rw [List.dropWhile_cons, if_pos hws,
        dropWhile_eq_self_of_head (wsNormAux_true_head hrest)]
      exact hrest
    · rw [if_neg hws] at h
      rw [List.dropWhile_cons, if_neg hws, wsNormAux, if_neg hws]
      exact h

theorem wsNormAux_append_left : ∀ (l₁ l₂ : JStr) (b : Bool),
    wsNormAux b (l₁ ++ l₂) = true → wsNormAux b l₁ = true := by
  intro l₁
  induction l₁ with
  | nil => intro l₂ b _; rfl
  | cons c rest ih =>
    intro l₂ b h
    rw [List.cons_append, wsNormAux] at h
    rw [wsNormAux]
    by_cases hws : isJsWs c = true
    · rw [if_pos hws] at h ⊢
      simp only [Bool.and_eq_true] at h ⊢
      exact ⟨h.1, ih l₂ true h.2⟩
    · rw [if_neg hws] at h ⊢
      exact ih l₂ false h

/-- The output of `normalizeSpaces` is in whitespace normal form. -/
theorem wsNormal_normalizeSpaces (s : JStr) : WsNormal (normalizeSpaces s) := by
  unfold normalizeSpaces collapseWs jsTrim
  set x := collapseWsAux false s with hx
  set y := x.dropWhile isJsWs with hy
  have hny : wsNormAux true y = true :=
    wsNormAux_dropWhile (wsNormAux_collapseWsAux s false)
  constructor
  · have hsplit : y.reverse.takeWhile isJsWs ++ y.reverse.dropWhile isJsWs = y.reverse :=
      List.takeWhile_append_dropWhile isJsWs y.reverse
    have hy2 : y = (y.reverse.dropWhile isJsWs).reverse ++ (y.reverse.takeWhile isJsWs).reverse := by
      conv_lhs => rw [← List.reverse_reverse y, ← hsplit]
      rw [List.reverse_append]
    rw [hy2] at hny
    exact wsNormAux_append_left _ _ _ hny
  · intro c hc
    rw [List.getLast?_reverse] at hc
    have := List.head?_dropWhile_not isJsWs y.reverse
    rw [hc] at this
    exact this

theorem wsNormAux_lowerStr : ∀ (l : JStr) (b : Bool),
    wsNormAux b (lowerStr l) = wsNormAux b l := by
  intro l
  induction l with
  | nil => intro b; rfl
  | cons c rest ih =>
    intro b
    show wsNormAux b (lowerChar c :: lowerStr rest) = _
    rw [wsNormAux, wsNormAux, ws_lowerChar]
    by_cases hws : isJsWs c = true
    · rw [if_pos hws, if_pos hws, lowerChar_of_ws hws, ih true]
    · rw [if_neg hws, if_neg hws, ih false]

theorem wsNormAux_capAux : ∀ (l : JStr) (b b' : Bool),
    wsNormAux b (capAux b' l) = wsNormAux b l := by
  intro l
  induction l with
  | nil => intro b b'; rfl
  | cons c rest ih =>
    intro b b'
    rw [capAux]
    set c' := if ¬b' ∧ isLowerAlpha c then upperChar c else c with hc'
    have hwsc : isJsWs c' = isJsWs c := by
      rw [hc']
      split
      · exact ws_upperChar c
      · rfl
    rw [wsNormAux, wsNormAux, hwsc]
    by_cases hws : isJsWs c = true
    · have hcc : c' = c := by
        rw [hc']
        split
        · rename_i hcond
          exfalso
          have : isLowerAlpha c = true := hcond.2
          unfold isLowerAlpha at this
          unfold isJsWs at hws
          rw [decide_eq_true_eq] at this hws
          omega
        · rfl
      rw [if_pos hws, if_pos hws, hcc, ih true]
    · rw [if_neg hws, if_neg hws, ih false]

theorem skeleton_lowerStr (l : JStr) : (lowerStr l).map isJsWs = l.map isJsWs := by
  unfold lowerStr
  rw [List.map_map]
  exact List.map_congr_left (fun c _ => ws_lowerChar c)

theorem skeleton_capAux : ∀ (l : JStr) (b : Bool),
    (capAux b l).map isJsWs = l.map isJsWs := by
  intro l
  induction l with
  | nil => intro b; rfl
  | cons c rest ih =>
    intro b
    rw [capAux, List.map_cons, List.map_cons, ih]
    congr 1
    split
    · exact ws_upperChar c
    · rfl

theorem lastNotWs_of_skeleton {l l' : JStr} (hsk : l'.map isJsWs = l.map isJsWs)
    (h : ∀ c, l.getLast? = some c → isJsWs c = false) :
    ∀ c, l'.getLast? = some c → isJsWs c = false := by
  intro c hc
  have h1 : (l'.map isJsWs).getLast? = some (isJsWs c) := by
    rw [List.getLast?_map, hc]
    rfl
  rw [hsk, List.getLast?_map] at h1
  cases hl : l.getLast? with
  | none =>
    rw [hl, Option.map_none'] at h1
    exact absurd h1 (by simp)
  | some d =>
    rw [hl, Option.map_some'] at h1
    obtain h2 := Option.some.injEq .. ▸ h1
    rw [← h2]
    exact h d hl

theorem wsNormal_lowerStr {l : JStr} (h : WsNormal l) : WsNormal (lowerStr l) :=
  ⟨by rw [wsNormAux_lowerStr]; exact h.1,
    lastNotWs_of_skeleton (skeleton_lowerStr l) h.2⟩

theorem wsNormal_capAux {l : JStr} (b : Bool) (h : WsNormal l) : WsNormal (capAux b l) :=
  ⟨by rw [wsNormAux_capAux]; exact h.1,
    lastNotWs_of_skeleton (skeleton_capAux l b) h.2⟩

/-- `normalizeSpaces` is idempotent. -/
theorem normalizeSpaces_idem (s : JStr) :
    normalizeSpaces (normalizeSpaces s) = normalizeSpaces s :=
  normalizeSpaces_eq_self_of_wsNormal (wsNormal_normalizeSpaces s)

theorem lowerStr_capAux : ∀ (l : JStr) (b : Bool), lowerStr (capAux b l) = lowerStr l := by
  intro l
  induction l with
  | nil => intro b; rfl
  | cons c rest ih =>
    intro b
    rw [capAux]
    show lowerChar _ :: lowerStr (capAux (isWordChar c) rest) = lowerChar c :: lowerStr rest
    rw [ih]
    congr 1
    split
    · rename_i hcond
      exact (lowerChar_upperChar_of_lowerAlpha hcond.2).trans
        (lowerChar_of_lowerAlpha hcond.2).symm
    · rfl

theorem lowerStr_idem (l : JStr) : lowerStr (lowerStr l) = lowerStr l := by
  unfold lowerStr
  rw [List.map_map]
  exact List.map_congr_left (fun c _ => lowerChar_lowerChar c)

/-- ASCII letters `[A-Za-z]`. -/
def isAsciiLetter (c : Nat) : Bool := (65 ≤ c ∧ c ≤ 90) ∨ (97 ≤ c ∧ c ≤ 122)

/-- "word boundary = any position whose character immediately follows a
non-letter character (including the start of the string)": the predecessor
(`none` at the string start) is not a letter. -/
def prevIsLetterBoundary : Option Nat → Bool
  | none => true
  | some q => !(isAsciiLetter q)

/-- The boundary rule actually implemented by the regex `\b`: the predecessor
(`none` at the string start) is not a `\w` word character (letter, digit or
underscore). -/
def prevIsWordBoundary : Option Nat → Bool
  | none => true
  | some q => !(isWordChar q)

/-- `titleCase` as described by the spec sentence: lower-case the
whitespace-normalized string, then upper-case exactly those letters whose
predecessor is a non-letter (or that start the string).  Each position is
paired with its predecessor by zipping with the shifted string. -/
def titleCaseLetterBoundary (s : JStr) : JStr :=
  let l := lowerStr (normalizeSpaces s)
  (l.zip (none :: l.map some)).map (fun p =>
    if prevIsLetterBoundary p.2 && isLowerAlpha p.1 then upperChar p.1 else p.1)

/-- `titleCase` with the boundary rule of the regex `\b`: upper-case exactly
those letters whose predecessor is not a `\w` character (or that start the
string). -/
def titleCaseWordBoundary (s : JStr) : JStr :=
  let l := lowerStr (normalizeSpaces s)
  (l.zip (none :: l.map some)).map (fun p =>
    if prevIsWordBoundary p.2 && isLowerAlpha p.1 then upperChar p.1 else p.1)

theorem capAux_eq_zip : ∀ (l : JStr) (b : Bool) (p : Option Nat),
    prevIsWordBoundary p = !b →
    capAux b l = (l.zip (p :: l.map some)).map (fun q =>
      if prevIsWordBoundary q.2 && isLowerAlpha q.1 then upperChar q.1 else q.1) := by
  intro l
  induction l with
  | nil => intro b p _; rfl
  | cons c rest ih =>
    intro b p hp
    rw [capAux, List.map_cons, List.zip_cons_cons, List.map_cons]
    congr 1
    · rw [hp]
      cases b with
      | false => simp
      | true => simp
    · exact ih (isWordChar c) (some c) rfl

/-- C6 counterexample: on the input `"4a"`, the letter `a` immediately
follows the non-letter `4`, so the claimed rule would capitalize it; the
regex `\b` of the implementation treats the digit as a word character and
leaves the `a` lower-case.  The claim is false at this input. -/
theorem titleCase_letter_boundary_counterexample :
    titleCase (jstr "4a") = jstr "4a" ∧
    titleCaseLetterBoundary (jstr "4a") = jstr "4A" ∧
    titleCase (jstr "4a") ≠ titleCaseLetterBoundary (jstr "4a") := by
  refine ⟨by decide, by decide, by decide⟩

/-- C6 (amended): `titleCase s` lower-cases the whitespace-normalized form of
`s` and upper-cases exactly those letters whose predecessor is not a word
character (letter, digit or underscore), including the string start. -/
theorem titleCase_eq_wordBoundary (s : JStr) :
    titleCase s = titleCaseWordBoundary s :=
  capAux_eq_zip (lowerStr (normalizeSpaces s)) false none rfl

/-- C8: the composed canonicalization `titleCase (normalizeSpaces s)` is
idempotent. -/
theorem titleCase_normalizeSpaces_idem (s : JStr) :
    titleCase (normalizeSpaces (titleCase (normalizeSpaces s)))
      = titleCase (normalizeSpaces s) := by
  set y := normalizeSpaces s with hy
  have hyN : WsNormal y := wsNormal_normalizeSpaces s
  have h1 : titleCase y = capAux false (lowerStr y) := by
    unfold titleCase
    rw [normalizeSpaces_eq_self_of_wsNormal hyN]
  have hzN : WsNormal (capAux false (lowerStr y)) :=
    wsNormal_capAux false (wsNormal_lowerStr hyN)
  rw [h1, normalizeSpaces_eq_self_of_wsNormal hzN]
  show capAux false (lowerStr (normalizeSpaces (capAux false (lowerStr y)))) = _
  rw [normalizeSpaces_eq_self_of_wsNormal hzN, lowerStr_capAux, lowerStr_idem]

/-- JS truthiness of `options.find(...)`: `undefined` and the empty string
are falsy. -/
def jsTruthyStrOpt : Option JStr → Bool
  | none => false
  | some s => s ≠ []

/-- One iteration of the candidate loop of `bestCitySuggestion`:
`if (!best || dist < best.dist) best = { city, dist }`. -/
def stepBest (inputTC c : JStr) : Option (JStr × Nat) → Option (JStr × Nat)
  | none => some (c, levenshtein inputTC c)
  | some (b, bd) =>
    if levenshtein inputTC c < bd then some (c, levenshtein inputTC c) else some (b, bd)

/-- The candidate loop of `bestCitySuggestion` (src/app/page.tsx):
`for (const city of options) { const dist = levenshtein(inputTC, city);
if (!best || dist < best.dist) best = { city, dist }; }`. -/
def bestLoop (inputTC : JStr) : List JStr → Option (JStr × Nat) → Option (JStr × Nat)
  | [], best => best
  | c :: rest, best => bestLoop inputTC rest (stepBest inputTC c best)

/-- `bestCitySuggestion` from src/app/page.tsx. -/
def bestCitySuggestion (input : JStr) (options : List JStr) : Option JStr :=
  if normalizeSpaces input = [] then none
  else
    if jsTruthyStrOpt (options.find? (fun c =>
        lowerStr c = lowerStr (titleCase (normalizeSpaces input)))) then none
    else
      match bestLoop (titleCase (normalizeSpaces input)) options none with
      | none => none
      | some (city, dist) =>
        if (titleCase (normalizeSpaces input)).length < 5 then none
        else if dist ≤ 2 then some city
        else if dist = 3 ∧ 9 ≤ (titleCase (normalizeSpaces input)).length then some city
        else none

/-- Minimum of a list of distances (`none` on the empty list). -/
def minD : List Nat → Option Nat
  | [] => none
  | d :: rest => some (match minD rest with | none => d | some m => min d m)

/-- The city-suggestion algorithm as the spec states it: normalize and
title-case the input (`none` on empty); `none` when a known city equals the
canonicalized input case-insensitively; otherwise take the known city of
minimum edit distance, the first in list order winning ties, and apply the
three-tier acceptance policy (length < 5: never; distance ≤ 2: accept;
distance = 3 and length ≥ 9: accept; otherwise reject). -/
def citySuggestionRef (input : JStr) (options : List JStr) : Option JStr :=
  if normalizeSpaces input = [] then none
  else
    if options.any (fun c => lowerStr c = lowerStr (titleCase (normalizeSpaces input))) then
      none
    else
      match minD (options.map (levenshtein (titleCase (normalizeSpaces input)))) with
      | none => none
      | some dmin =>
        match options.find? (fun c =>
            levenshtein (titleCase (normalizeSpaces input)) c = dmin) with
        | none => none
        | some city =>
          if (titleCase (normalizeSpaces input)).length < 5 then none
          else if dmin ≤ 2 then some city
          else if dmin = 3 ∧ 9 ≤ (titleCase (normalizeSpaces input)).length then some city
          else none

/-- Keep the earlier candidate on ties. -/
def pickFirst (c : JStr) (fc : Nat) : Option (JStr × Nat) → Option (JStr × Nat)
  | none => some (c, fc)
  | some (b, bd) => if fc ≤ bd then some (c, fc) else some (b, bd)

/-- Leftmost minimizer together with its distance. -/
def firstMin (f : JStr → Nat) : List JStr → Option (JStr × Nat)
  | [] => none
  | c :: rest => pickFirst c (f c) (firstMin f rest)

/-- Resolve an already-held candidate against the best of the remaining list
(the held candidate wins ties). -/
def resolveBest (b : JStr) (bd : Nat) : Option (JStr × Nat) → Option (JStr × Nat)
  | none => some (b, bd)
  | some (c, d) => if d < bd then some (c, d) else some (b, bd)

theorem stepBest_none (tc c : JStr) : stepBest tc c none = some (c, levenshtein tc c) := rfl

theorem stepBest_some (tc c b : JStr) (bd : Nat) :
    stepBest tc c (some (b, bd))
      = if levenshtein tc c < bd then some (c, levenshtein tc c) else some (b, bd) := rfl

theorem pickFirst_none (c : JStr) (fc : Nat) : pickFirst c fc none = some (c, fc) := rfl

theorem pickFirst_some (c b : JStr) (fc bd : Nat) :
    pickFirst c fc (some (b, bd)) = if fc ≤ bd then some (c, fc) else some (b, bd) := rfl

theorem resolveBest_none (b : JStr) (bd : Nat) : resolveBest b bd none = some (b, bd) := rfl

theorem resolveBest_some (b c : JStr) (bd d : Nat) :
    resolveBest b bd (some (c, d)) = if d < bd then some (c, d) else some (b, bd) := rfl

theorem firstMin_cons_ne_none (f : JStr → Nat) (c : JStr) (rest : List JStr) :
    firstMin f (c :: rest) ≠ none := by
  rw [firstMin]
  cases firstMin f rest with
  | none => rw [pickFirst_none]; simp
  | some p =>
    obtain ⟨b, bd⟩ := p
    rw [pickFirst_some]
    split <;> simp

theorem bestLoop_acc (tc : JStr) : ∀ (opts : List JStr) (b : JStr) (bd : Nat),
    bestLoop tc opts (some (b, bd))
      = resolveBest b bd (firstMin (levenshtein tc) opts) := by
  intro opts
  induction opts with
  | nil => intro b bd; rfl
  | cons c rest ih =>
    intro b bd
    rw [bestLoop, firstMin, stepBest_some]
    by_cases hlt : levenshtein tc c < bd
    · rw [if_pos hlt, ih]
      cases hrest : firstMin (levenshtein tc) rest with
      | none =>
        rw [resolveBest_none, pickFirst_none, resolveBest_some, if_pos hlt]
      | some p =>
        obtain ⟨b', bd'⟩ := p
        rw [resolveBest_some, pickFirst_some]
        by_cases h1 : levenshtein tc c ≤ bd'
        · rw [if_pos h1, if_neg (by omega), resolveBest_some, if_pos hlt]
        · rw [if_neg h1, if_pos (by omega), resolveBest_some, if_pos (by omega)]
    · rw [if_neg hlt, ih]
      cases hrest : firstMin (levenshtein tc) rest with
      | none =>
        rw [resolveBest_none, pickFirst_none, resolveBest_some, if_neg hlt]
      | some p =>
        obtain ⟨b', bd'⟩ := p
        rw [resolveBest_some, pickFirst_some]
        by_cases h1 : levenshtein tc c ≤ bd'
        · rw [if_pos h1, resolveBest_some, if_neg hlt, if_neg (by omega)]
        · rw [if_neg h1, resolveBest_some]

theorem bestLoop_eq_firstMin (tc : JStr) (opts : List JStr) :
    bestLoop tc opts none = firstMin (levenshtein tc) opts := by
  cases opts with
  | nil => rfl
  | cons c rest =>
    rw [bestLoop, firstMin, stepBest_none, bestLoop_acc]
    cases hrest : firstMin (levenshtein tc) rest with
    | none => rw [resolveBest_none, pickFirst_none]
    | some p =>
      obtain ⟨b', bd'⟩ := p
      rw [resolveBest_some, pickFirst_some]
      by_cases h1 : levenshtein tc c ≤ bd'
      · rw [if_pos h1, if_neg (by omega)]
      · rw [if_neg h1, if_pos (by omega)]

theorem firstMin_facts (f : JStr → Nat) : ∀ (opts : List JStr) (c : JStr) (d : Nat),
    firstMin f opts = some (c, d) →
      minD (opts.map f) = some d ∧
      opts.find? (fun x => f x = d) = some c ∧ c ∈ opts := by
  intro opts
  induction opts with
  | nil => intro c d h; exact absurd h (by simp [firstMin])
  | cons a rest ih =>
    intro c d h
    rw [firstMin] at h
    cases hrest : firstMin f rest with
    | none =>
      rw [hrest, pickFirst_none] at h
      simp only [Option.some.injEq, Prod.mk.injEq] at h
      obtain ⟨rfl, rfl⟩ := h
      have hrestnil : rest = [] := by
        cases rest with
        | nil => rfl
        | cons x xs => exact absurd hrest (firstMin_cons_ne_none f x xs)
      subst hrestnil
      refine ⟨rfl, ?_, by simp⟩
      exact List.find?_cons_of_pos _ (by simp)
    | some p =>
      obtain ⟨b', bd'⟩ := p
      rw [hrest, pickFirst_some] at h
      obtain ⟨hmin, hfind, hmem⟩ := ih b' bd' hrest
      by_cases hle : f a ≤ bd'
      · rw [if_pos hle] at h
        simp only [Option.some.injEq, Prod.mk.injEq] at h
        obtain ⟨rfl, rfl⟩ := h
        refine ⟨?_, ?_, by simp⟩
        · rw [List.map_cons, minD, hmin]
          show some (min (f a) bd') = some (f a)
          rw [Nat.min_eq_left hle]
        · exact List.find?_cons_of_pos _ (by simp)
      · rw [if_neg hle] at h
        simp only [Option.some.injEq, Prod.mk.injEq] at h
        obtain ⟨rfl, rfl⟩ := h
        refine ⟨?_, ?_, List.mem_cons_of_mem a hmem⟩
        · rw [List.map_cons, minD, hmin]
          show some (min (f a) bd') = some bd'
          rw [Nat.min_eq_right (by omega)]
        · rw [List.find?_cons_of_neg _ (by
            intro hcon
            simp only [decide_eq_true_eq] at hcon
            omega)]
          exact hfind

theorem capAux_length : ∀ (b : Bool) (l : JStr), (capAux b l).length = l.length := by
  intro b l
  induction l generalizing b with
  | nil => rfl
  | cons c rest ih =>
    rw [capAux, List.length_cons, List.length_cons, ih]

theorem jsTruthy_find_eq_any (p : JStr → Bool) (opts : List JStr)
    (hne : ∀ e, p e = true → e ≠ []) :
    jsTruthyStrOpt (opts.find? p) = opts.any p := by
  cases hf : opts.find? p with
  | none =>
    have : opts.any p = false := by
      rw [List.any_eq_false]
      intro x hx hpx
      rw [List.find?_eq_none] at hf
      exact hf x hx hpx
    rw [this]
    rfl
  | some e =>
    have hp : p e = true := List.find?_some hf
    have hmem : e ∈ opts := List.mem_of_find?_eq_some hf
    have h1 : jsTruthyStrOpt (some e) = true := by
      show decide (e ≠ []) = true
      rw [decide_eq_true_eq]
      exact hne e hp
    rw [h1]
    symm
    rw [List.any_eq_true]
    exact ⟨e, hmem, hp⟩

/-- C1: `bestCitySuggestion` follows the four-step reference algorithm of
the spec: normalize and title-case the input (`none` if empty after
normalization); `none` if a known city equals the canonicalized input
case-insensitively; otherwise select the known city of minimum Levenshtein
distance, the first in list order winning ties; then the three-tier
acceptance policy (`none` when the canonicalized length is under 5; accept
at distance ≤ 2; accept at distance exactly 3 when the length is at
least 9; otherwise `none`). -/
theorem bestCitySuggestion_follows_ref (input : JStr) (options : List JStr) :
    bestCitySuggestion input options = citySuggestionRef input options := by
  unfold bestCitySuggestion citySuggestionRef
  by_cases hraw : normalizeSpaces input = []
  · rw [if_pos hraw, if_pos hraw]
  · rw [if_neg hraw, if_neg hraw]
    have hlen : (titleCase (normalizeSpaces input)).length = (normalizeSpaces input).length := by
      unfold titleCase
      rw [normalizeSpaces_idem, capAux_length, lowerStr_length]
    have hne : ∀ e,
        (fun c => decide (lowerStr c = lowerStr (titleCase (normalizeSpaces input)))) e = true →
          e ≠ [] := by
      intro e he
      simp only [decide_eq_true_eq] at he
      intro hnil
      subst hnil
      have h0 : (titleCase (normalizeSpaces input)).length = 0 := by
        have := congrArg List.length he
        rw [lowerStr_length, lowerStr_length] at this
        simpa using this.symm
      rw [hlen] at h0
      exact hraw (List.length_eq_zero.mp h0)
    rw [jsTruthy_find_eq_any _ options hne]
    by_cases hex : options.any
        (fun c => lowerStr c = lowerStr (titleCase (normalizeSpaces input))) = true
    · rw [if_pos hex, if_pos hex]
    · rw [if_neg hex, if_neg hex, bestLoop_eq_firstMin]
      cases hfm : firstMin (levenshtein (titleCase (normalizeSpaces input))) options with
      | none =>
        have hnil : options = [] := by
          cases options with
          | nil => rfl
          | cons x xs => exact absurd hfm (firstMin_cons_ne_none _ x xs)
        subst hnil
        rfl
      | some p =>
        obtain ⟨city, d⟩ := p
        obtain ⟨hmin, hfind, _⟩ := firstMin_facts _ options city d hfm
        simp only [hmin, hfind]

/-- C10: a non-null result of `bestCitySuggestion` is always one of the
given options, and with an empty options list the result is always null. -/
theorem bestCitySuggestion_result_mem (input : JStr) (options : List JStr) :
    (∀ c, bestCitySuggestion input options = some c → c ∈ options) ∧
    bestCitySuggestion input [] = none := by
  constructor
  · intro c hc
    unfold bestCitySuggestion at hc
    by_cases hraw : normalizeSpaces input = []
    · rw [if_pos hraw] at hc
      exact absurd hc (by simp)
    · rw [if_neg hraw] at hc
      by_cases hex : jsTruthyStrOpt (options.find? (fun x =>
          lowerStr x = lowerStr (titleCase (normalizeSpaces input)))) = true
      · rw [if_pos hex] at hc
        exact absurd hc (by simp)
      · rw [if_neg hex, bestLoop_eq_firstMin] at hc
        cases hfm : firstMin (levenshtein (titleCase (normalizeSpaces input))) options with
        | none =>
          rw [hfm] at hc
          exact absurd hc (by simp)
        | some p =>
          obtain ⟨city, d⟩ := p
          rw [hfm] at hc
          obtain ⟨_, _, hmem⟩ := firstMin_facts _ options city d hfm
          revert hc
          show (if (titleCase (normalizeSpaces input)).length < 5 then none
            else if d ≤ 2 then some city
            else if d = 3 ∧ 9 ≤ (titleCase (normalizeSpaces input)).length then some city
            else none) = some c → c ∈ options
          intro hc
          split at hc
          · exact absurd hc (by simp)
          · split at hc
            · obtain rfl : city = c := by simpa using hc
              exact hmem
            · split at hc
              · obtain rfl : city = c := by simpa using hc
                exact hmem
              · exact absurd hc (by simp)
  · unfold bestCitySuggestion
    by_cases hraw : normalizeSpaces input = []
    · rw [if_pos hraw]
    · rw [if_neg hraw]
      rfl

theorem bestCitySuggestion_result_mem_witness :
    jstr "Jersey City" ∈ [jstr "Jersey City", jstr "Hoboken"] :=
  (bestCitySuggestion_result_mem (jstr "Jersesy City")
    [jstr "Jersey City", jstr "Hoboken"]).1 (jstr "Jersey City") (by decide)

/-- A JS `number` value: a finite value (modelled as a rational) or a
non-finite one (`NaN`, `±Infinity`). -/
inductive JsNum
  | fin (q : ℚ)
  | nonfinite
deriving DecidableEq

/-- The `Review` row type of src/app/venues/[id]/page.tsx (field for field;
nullable columns are `Option`). -/
structure Review where
  id : JStr
  venue_id : JStr
  role : JStr
  tips_weekly : Option JsNum
  hours_weekly : Option JsNum
  tip_pool : Option Bool
  busy_season : Option JStr
  recommended : Bool
  comment : Option JStr
  earnings_label : JStr
  created_at : JStr
deriving DecidableEq

/-- `typeof v === "number" && Number.isFinite(v)`: the finite numeric value of
a nullable field, `none` for `null` or a non-finite number. -/
def finiteVal : Option JsNum → Option ℚ
  | some (JsNum.fin q) => some q
  | _ => none

/-- The fields of the `summary` memo of src/app/venues/[id]/page.tsx. -/
structure Summary where
  total : Nat
  avgTips : Option ℚ
  avgHours : Option ℚ
  pctRecommended : Option ℚ
  pctTipPool : Option ℚ
  tipsSample : Nat
  hoursSample : Nat
  tipPoolSample : Nat
deriving DecidableEq

/-- The `summary` computation of src/app/venues/[id]/page.tsx:
`tipsVals`/`hoursVals` keep only finite numeric values
(`.map(...).filter(v => typeof v === "number" && Number.isFinite(v))`,
modelled as a `filterMap`); averages divide their sum by their count and are
`null` when no review contributes; `pctRecommended` is over all reviews
(`null` for an empty list); `pctTipPool` is over reviews with
`tip_pool !== null` (`null` when there are none). -/
def summary (reviews : List Review) : Summary :=
  let total := reviews.length
  let tipsVals := reviews.filterMap (fun r => finiteVal r.tips_weekly)
  let hoursVals := reviews.filterMap (fun r => finiteVal r.hours_weekly)
  let recommendedCount := (reviews.filter (fun r => r.recommended)).length
  let tipPoolKnown := reviews.filter (fun r => r.tip_pool ≠ none)
  let tipPoolYes := (tipPoolKnown.filter (fun r => r.tip_pool = some true)).length
  ⟨total,
    if 0 < tipsVals.length then some (tipsVals.sum / (tipsVals.length : ℚ)) else none,
    if 0 < hoursVals.length then some (hoursVals.sum / (hoursVals.length : ℚ)) else none,
    if 0 < total then some (((recommendedCount : ℚ) / (total : ℚ)) * 100) else none,
    if 0 < tipPoolKnown.length
      then some (((tipPoolYes : ℚ) / (tipPoolKnown.length : ℚ)) * 100) else none,
    tipsVals.length, hoursVals.length, tipPoolKnown.length⟩

/-- The aggregation as the spec states it: averages are taken only over
reviews whose field holds a finite number (excluded from numerator and
denominator otherwise, `none` when no review contributes, with the
contributing count reported); percentage recommended is
`count recommended / total * 100` (`none` when the list is empty); percentage
tip-pool is `count (tip_pool = true) / count (tip_pool known) * 100` (`none`
when no review has a known tip-pool value). -/
def summarySpec (reviews : List Review) : Summary :=
  let tipsContrib := reviews.filter (fun r => (finiteVal r.tips_weekly).isSome)
  let hoursContrib := reviews.filter (fun r => (finiteVal r.hours_weekly).isSome)
  let nRec := reviews.countP (fun r => r.recommended)
  let nKnown := reviews.countP (fun r => (r.tip_pool).isSome)
  let nYes := reviews.countP (fun r => r.tip_pool = some true)
  ⟨reviews.length,
    if tipsContrib = [] then none
      else some ((tipsContrib.filterMap (fun r => finiteVal r.tips_weekly)).sum
        / (tipsContrib.length : ℚ)),
    if hoursContrib = [] then none
      else some ((hoursContrib.filterMap (fun r => finiteVal r.hours_weekly)).sum
        / (hoursContrib.length : ℚ)),
    if reviews = [] then none
      else some (((nRec : ℚ) / (reviews.length : ℚ)) * 100),
    if nKnown = 0 then none else some (((nYes : ℚ) / (nKnown : ℚ)) * 100),
    tipsContrib.length, hoursContrib.length, nKnown⟩

theorem filterMap_filter_isSome {α β : Type} (f : α → Option β) (l : List α) :
    (l.filter (fun x => (f x).isSome)).filterMap f = l.filterMap f := by
  induction l with
  | nil => rfl
  | cons a rest ih =>
    rw [List.filter_cons, List.filterMap_cons]
    cases hf : f a with
    | none =>
      rw [if_neg (by simp [hf])]
      exact ih
    | some b =>
      rw [if_pos (by simp [hf]), List.filterMap_cons, hf, ih]

theorem length_filterMap_eq_length_filter {α β : Type} (f : α → Option β) (l : List α) :
    (l.filterMap f).length = (l.filter (fun x => (f x).isSome)).length := by
  induction l with
  | nil => rfl
  | cons a rest ih =>
    rw [List.filter_cons, List.filterMap_cons]
    cases hf : f a with
    | none =>
      rw [if_neg (by simp [hf])]
      exact ih
    | some b =>
      rw [if_pos (by simp [hf]), List.length_cons, List.length_cons, ih]

theorem ite_pos_nat {β : Type} (n : Nat) (x : β) :
    (if 0 < n then some x else none) = (if n = 0 then none else some x) := by
  cases n <;> simp

/-- A review whose only populated numeric field is a finite tips value. -/
def tipsReview (q : ℚ) : Review :=
  ⟨[], [], [], some (JsNum.fin q), none, none, none, false, none, [], []⟩

/-- A review with a null tips value. -/
def tipsNullReview : Review :=
  ⟨[], [], [], none, none, none, none, false, none, [], []⟩

theorem summary_eq_summarySpec (rs : List Review) : summary rs = summarySpec rs := by
  unfold summary summarySpec
  have htips1 := filterMap_filter_isSome (fun r => finiteVal r.tips_weekly) rs
  have htips2 := length_filterMap_eq_length_filter (fun r => finiteVal r.tips_weekly) rs
  have hhours1 := filterMap_filter_isSome (fun r => finiteVal r.hours_weekly) rs
  have hhours2 := length_filterMap_eq_length_filter (fun r => finiteVal r.hours_weekly) rs
  have hrec : (rs.filter (fun r => r.recommended)).length
      = rs.countP (fun r => r.recommended) :=
    (List.countP_eq_length_filter _ _).symm
  have hkn : rs.filter (fun r => r.tip_pool ≠ none)
      = rs.filter (fun r => (r.tip_pool).isSome) :=
    List.filter_congr (fun r _ => by cases h : r.tip_pool <;> simp)
  have hknlen : (rs.filter (fun r => (r.tip_pool).isSome)).length
      = rs.countP (fun r => (r.tip_pool).isSome) :=
    (List.countP_eq_length_filter _ _).symm
  have hyes : (rs.filter (fun r => (r.tip_pool).isSome)).filter
        (fun r => r.tip_pool = some true)
      = rs.filter (fun r => r.tip_pool = some true) := by
    rw [List.filter_filter]
    exact List.filter_congr (fun r _ => by cases h : r.tip_pool with
      | none => simp
      | some b => cases b <;> simp)
  have hyeslen : (rs.filter (fun r => r.tip_pool = some true)).length
      = rs.countP (fun r => r.tip_pool = some true) :=
    (List.countP_eq_length_filter _ _).symm
  simp only [htips1, htips2, hhours1, hhours2, hrec, hkn, hknlen, hyes, hyeslen,
    ite_pos_nat, List.length_eq_zero]

/-- C2: the review-aggregation summary computes total, the
finite-contributions-only averages with their sample counts, the
recommended percentage over all reviews, and the tip-pool percentage over
known values, each `null` exactly when no review contributes; in particular
the empty list yields total 0 and all-null statistics, and tips values
`[100, null, 300]` average to 200 over 2 samples. -/
theorem summary_aggregation (rs : List Review) :
    summary rs = summarySpec rs ∧
    summary [] = ⟨0, none, none, none, none, 0, 0, 0⟩ ∧
    (summary [tipsReview 100, tipsNullReview, tipsReview 300]).avgTips = some 200 ∧
    (summary [tipsReview 100, tipsNullReview, tipsReview 300]).tipsSample = 2 := by
  refine ⟨summary_eq_summarySpec rs, by decide, ?_, by decide⟩
  show (if 0 < ([(100 : ℚ), 300].length) then
      some (([(100 : ℚ), 300]).sum / (([(100 : ℚ), 300]).length : ℚ)) else none) = some 200
  norm_num

/-- The `VenueRow` type of src/app/page.tsx. -/
structure VenueRow where
  id : JStr
  name : JStr
  city : JStr
  state : JStr
  venue_type : Option JStr
  created_at : JStr
  place_id : Option JStr
  formatted_address : Option JStr
  lat : Option JsNum
  lng : Option JsNum
deriving DecidableEq

/-- The `PlacePick` type of src/app/page.tsx. -/
structure PlacePick where
  placeId : JStr
  name : JStr
  formattedAddress : JStr
  city : JStr
  state : JStr
  lat : JsNum
  lng : JsNum
deriving DecidableEq

/-- One operation issued against the backend by the venue page.  Only the
shapes the embedded code can issue are listed; the non-select constructors
exist so that read-only statements are not vacuous by type. -/
inductive DbOp
  | selectVenuesByPlaceId (placeId : JStr)
  | selectVenuesByState (state : JStr)
  | insertVenue (name city state : JStr)
  | updateVenue (id : JStr)
  | deleteVenue (id : JStr)
deriving DecidableEq

def DbOp.isSelect : DbOp → Bool
  | selectVenuesByPlaceId _ => true
  | selectVenuesByState _ => true
  | _ => false

/-- `findExistingVenueByPlaceId` from src/app/page.tsx: query venues with
`.eq("place_id", placeId).maybeSingle()`; `maybeSingle` yields the row when
exactly one matches, no row for zero matches, and an error (which the code
turns into `null`) for two or more.  The second component is the trace of
backend operations issued. -/
def findExistingVenueByPlaceId (store : List VenueRow) (placeId : JStr) :
    Option VenueRow × List DbOp :=
  (match store.filter (fun v => v.place_id = some placeId) with
    | [v] => some v
    | _ => none,
   [DbOp.selectVenuesByPlaceId placeId])

/-- `findExistingVenue` from src/app/page.tsx: query venues with
`.eq("state", state).limit(100)`, then `.find` a row whose normalized-key
name, city and state match. -/
def findExistingVenue (store : List VenueRow)
    (normalizedName normalizedCity state : JStr) : Option VenueRow × List DbOp :=
  (((store.filter (fun v => v.state = state)).take 100).find? (fun v =>
      normKey v.name = normalizedName ∧ normKey v.city = normalizedCity ∧
        normKey v.state = normKey state),
   [DbOp.selectVenuesByState state])

/-- `needle` begins `hay`. -/
def leadsWith : JStr → JStr → Bool
  | [], _ => true
  | _ :: _, [] => false
  | a :: as, b :: bs => a = b && leadsWith as bs

/-- `hay.includes(needle)`: some suffix of `hay` begins with `needle`. -/
def jsIncludes (needle : JStr) : JStr → Bool
  | [] => leadsWith needle []
  | c :: rest => leadsWith needle (c :: rest) || jsIncludes needle rest

/-- `code === "23505" || msg.toLowerCase().includes("duplicate")` from the
insert-error handler of `addVenue`. -/
def isDuplicateError (code : Option JStr) (msg : JStr) : Bool :=
  code = some (jstr "23505") || jsIncludes (jstr "duplicate") (lowerStr msg)

inductive DupOutcome
  | located (v : VenueRow)
  | unresolved
deriving DecidableEq

/-- The name/city fallback of the duplicate handler, appended to an already
issued trace: `existing = await findExistingVenue(normKey(name),
normKey(city), finalState)`, then located/unresolved. -/
def fallbackResolve (store : List VenueRow) (name city finalState : JStr)
    (ops : List DbOp) : DupOutcome × List DbOp :=
  match findExistingVenue store (normKey name) (normKey city) finalState with
  | (some w, ops2) => (DupOutcome.located w, ops ++ ops2)
  | (none, ops2) => (DupOutcome.unresolved, ops ++ ops2)

/-- The duplicate-resolution block of `addVenue` (src/app/page.tsx): if the
submission carried a (truthy, i.e. non-empty) place identifier, look the
venue up by identifier first; only when that yields nothing, fall back to
the name/city lookup; report `unresolved` when neither matches. -/
def resolveDuplicate (store : List VenueRow) (placePick : Option PlacePick)
    (name city finalState : JStr) : DupOutcome × List DbOp :=
  match placePick with
  | some p =>
    if p.placeId ≠ [] then
      match findExistingVenueByPlaceId store p.placeId with
      | (some v, ops) => (DupOutcome.located v, ops)
      | (none, ops) => fallbackResolve store name city finalState ops
    else fallbackResolve store name city finalState []
  | none => fallbackResolve store name city finalState []

inductive AddVenueErrorOutcome
  | duplicateResolved (o : DupOutcome)
  | otherError (msg : JStr)
deriving DecidableEq

/-- The insert-error handler of `addVenue`: a uniqueness conflict (code
`23505` or a message containing `"duplicate"`) triggers duplicate
resolution; any other error is surfaced as-is without further backend
operations. -/
def addVenueOnInsertError (store : List VenueRow) (placePick : Option PlacePick)
    (name city finalState : JStr) (errCode : Option JStr) (errMsg : JStr) :
    AddVenueErrorOutcome × List DbOp :=
  if isDuplicateError errCode errMsg then
    match resolveDuplicate store placePick name city finalState with
    | (o, ops) => (AddVenueErrorOutcome.duplicateResolved o, ops)
  else (AddVenueErrorOutcome.otherError errMsg, [])

/-- C4: on a uniqueness-conflict insert error (code `"23505"` or message
containing `"duplicate"`), duplicate resolution queries by place identifier
first when the submission carried a non-empty one — and when that lookup
succeeds the located venue is returned with only the identifier query
issued, the name/city fallback unused; only when no venue was located by
identifier (or no identifier was carried) does the name/city fallback
decide, yielding the located venue or an explicit unresolved signal; a
non-conflict error performs no resolution at all. -/
theorem addVenue_duplicate_resolution (store : List VenueRow)
    (pk : Option PlacePick) (name city st : JStr)
    (errCode : Option JStr) (errMsg : JStr) :
    (isDuplicateError errCode errMsg = true →
      (∀ p v, pk = some p → p.placeId ≠ [] →
        (findExistingVenueByPlaceId store p.placeId).1 = some v →
        addVenueOnInsertError store pk name city st errCode errMsg
          = (AddVenueErrorOutcome.duplicateResolved (DupOutcome.located v),
              [DbOp.selectVenuesByPlaceId p.placeId])) ∧
      ((pk = none ∨ ∃ p, pk = some p ∧
          (p.placeId = [] ∨ (findExistingVenueByPlaceId store p.placeId).1 = none)) →
        (addVenueOnInsertError store pk name city st errCode errMsg).1
          = AddVenueErrorOutcome.duplicateResolved
              (match (findExistingVenue store (normKey name) (normKey city) st).1 with
                | some w => DupOutcome.located w
                | none => DupOutcome.unresolved))) ∧
    (isDuplicateError errCode errMsg = false →
      addVenueOnInsertError store pk name city st errCode errMsg
        = (AddVenueErrorOutcome.otherError errMsg, [])) := by
  constructor
  · intro hdup
    constructor
    · intro p v hpk hpid hfound
      subst hpk
      unfold addVenueOnInsertError
      rw [if_pos hdup]
      unfold resolveDuplicate
      dsimp only
      rw [if_pos hpid]
      have hfp : findExistingVenueByPlaceId store p.placeId
          = ((findExistingVenueByPlaceId store p.placeId).1,
              [DbOp.selectVenuesByPlaceId p.placeId]) := rfl
      rw [hfp, hfound]
    · intro hno
      unfold addVenueOnInsertError
      rw [if_pos hdup]
      suffices h : ∃ ops0, resolveDuplicate store pk name city st
          = fallbackResolve store name city st ops0 by
        obtain ⟨ops0, hres⟩ := h
        rw [hres]
        unfold fallbackResolve
        cases hfind : findExistingVenue store (normKey name) (normKey city) st with
        | mk r ops2 => cases r <;> rfl
      rcases hno with hnone | ⟨p, hpk, hcase⟩
      · subst hnone
        exact ⟨[], rfl⟩
      · subst hpk
        rcases hcase with hempty | hnotfound
        · refine ⟨[], ?_⟩
          unfold resolveDuplicate
          dsimp only
          rw [if_neg (by simp [hempty])]
        · by_cases hpid : p.placeId = []
          · refine ⟨[], ?_⟩
            unfold resolveDuplicate
            dsimp only
            rw [if_neg (by simp [hpid])]
          · refine ⟨[DbOp.selectVenuesByPlaceId p.placeId], ?_⟩
            unfold resolveDuplicate
            dsimp only
            rw [if_pos hpid]
            have hfp : findExistingVenueByPlaceId store p.placeId
                = ((findExistingVenueByPlaceId store p.placeId).1,
                    [DbOp.selectVenuesByPlaceId p.placeId]) := rfl
            rw [hfp, hnotfound]
  · intro hnotdup
    unfold addVenueOnInsertError
    rw [if_neg (by simp [hnotdup])]

/-- A stored venue carrying place identifier `"P1"`, used to instantiate the
duplicate-resolution theorem. -/
def witVenue : VenueRow :=
  ⟨jstr "1", jstr "Bar", jstr "Hoboken", jstr "NJ", none, jstr "", some (jstr "P1"),
    none, none, none⟩

/-- A place pick carrying the same identifier `"P1"`. -/
def witPick : PlacePick :=
  ⟨jstr "P1", jstr "Bar", jstr "", jstr "Hoboken", jstr "NJ", JsNum.fin 0, JsNum.fin 0⟩

theorem addVenue_duplicate_resolution_witness :
    addVenueOnInsertError [witVenue] (some witPick) (jstr "Bar") (jstr "Hoboken")
        (jstr "NJ") (some (jstr "23505")) (jstr "duplicate key value")
      = (AddVenueErrorOutcome.duplicateResolved (DupOutcome.located witVenue),
          [DbOp.selectVenuesByPlaceId (jstr "P1")]) :=
  ((addVenue_duplicate_resolution [witVenue] (some witPick) (jstr "Bar") (jstr "Hoboken")
      (jstr "NJ") (some (jstr "23505")) (jstr "duplicate key value")).1 (by decide)).1
    witPick witVenue rfl (by decide) (by decide)

theorem fallbackResolve_trace (store : List VenueRow) (nm city st : JStr) (ops : List DbOp) :
    (fallbackResolve store nm city st ops).2 = ops ++ [DbOp.selectVenuesByState st] := by
  unfold fallbackResolve
  have hq : findExistingVenue store (normKey nm) (normKey city) st
      = ((findExistingVenue store (normKey nm) (normKey city) st).1,
          [DbOp.selectVenuesByState st]) := rfl
  rw [hq]
  cases (findExistingVenue store (normKey nm) (normKey city) st).1 <;> rfl

/-- C9: every backend operation issued by the duplicate-entity resolution —
the place-identifier lookup, the state-filtered name/city fallback lookup,
and the combined resolver — is a select; no insert, update or delete is ever
issued. -/
theorem duplicate_resolution_read_only (store : List VenueRow)
    (pk : Option PlacePick) (nm city st pid : JStr) :
    (findExistingVenueByPlaceId store pid).2.all DbOp.isSelect = true ∧
    (findExistingVenue store nm city st).2.all DbOp.isSelect = true ∧
    (resolveDuplicate store pk nm city st).2.all DbOp.isSelect = true := by
  refine ⟨rfl, rfl, ?_⟩
  unfold resolveDuplicate
  cases pk with
  | none =>
    dsimp only
    have := fallbackResolve_trace store nm city st []
    rw [this]
    rfl
  | some p =>
    dsimp only
    by_cases hpid : p.placeId = []
    · rw [if_neg (by simp [hpid])]
      rw [fallbackResolve_trace store nm city st []]
      rfl
    · rw [if_pos hpid]
      have hfp : findExistingVenueByPlaceId store p.placeId
          = ((findExistingVenueByPlaceId store p.placeId).1,
              [DbOp.selectVenuesByPlaceId p.placeId]) := rfl
      rw [hfp]
      cases (findExistingVenueByPlaceId store p.placeId).1 with
      | none =>
        show (fallbackResolve store nm city st
            [DbOp.selectVenuesByPlaceId p.placeId]).2.all DbOp.isSelect = true
        rw [fallbackResolve_trace]
        rfl
      | some v => rfl

/-- Client state of the venue review page: the device-scoped localStorage
flags (`kt_reviewed_<venueId> = "1"`, modelled as the set of flagged venue
ids) and the `alreadyReviewedHere` component state. -/
structure DeviceState where
  reviewedFlags : List JStr
  alreadyReviewedHere : Bool
deriving DecidableEq

/-- `hasReviewedVenue`: `localStorage.getItem(reviewedKey(venueId)) === "1"`. -/
def hasReviewedVenue (flags : List JStr) (venueId : JStr) : Bool := venueId ∈ flags

/-- `markReviewedVenue`: `localStorage.setItem(reviewedKey(venueId), "1")`. -/
def markReviewedVenue (flags : List JStr) (venueId : JStr) : List JStr := venueId :: flags

/-- Page mount: `setAlreadyReviewedHere(hasReviewedVenue(venueId))`. -/
def initPage (flags : List JStr) (venueId : JStr) : DeviceState :=
  ⟨flags, hasReviewedVenue flags venueId⟩

/-- The review form fields read by `addReview`. -/
structure ReviewForm where
  role : JStr
  tipsWeekly : JStr
  hoursWeekly : JStr
  tipPool : Bool
  busySeason : JStr
  recommended : Bool
  comment : JStr
  earningsLabel : JStr
deriving DecidableEq

/-- Result of the backend `insert` into `reviews`. -/
inductive InsertResult
  | ok
  | err (code : Option JStr) (msg : JStr)
deriving DecidableEq

/-- A backend call issued by the review page (only the review insert is
traced; loads are reads of the same page). -/
inductive ReviewDbCall
  | insertReview (venueId : JStr)
deriving DecidableEq

/-- Leading decimal digits of a string, `none` when there are none. -/
def parseDigits (l : JStr) : Option Nat :=
  let ds := l.takeWhile (fun c => 48 ≤ c ∧ c ≤ 57)
  if ds = [] then none
  else some (ds.foldl (fun acc c => acc * 10 + (c - 48)) 0)

/-- `Number.parseInt(s, 10)`: skip leading whitespace, optional sign, then
leading digits; `none` models `NaN`. -/
def jsParseInt (s : JStr) : Option Int :=
  match s.dropWhile isJsWs with
  | 45 :: rest => (parseDigits rest).map (fun n => -(n : Int))
  | 43 :: rest => (parseDigits rest).map (fun n => (n : Int))
  | t => (parseDigits t).map (fun n => (n : Int))

/-- `field.trim() !== "" && (Number.isNaN(v) || v < 0)`: the numeric-field
validation that rejects the submission. -/
def badNumField (field : JStr) : Bool :=
  jsTrim field ≠ [] &&
    (match jsParseInt field with
      | none => true
      | some t => t < 0)

/-- `addReview` from src/app/terms/page.tsx, as a step function: given the
client state, the form and the backend's reply to the insert (consulted only
when the insert is actually issued), produce the next client state and the
list of backend inserts issued.  The guards run in source order: missing
venue id, the `alreadyReviewedHere` client-side flag, required role, numeric
validations; only then is the insert sent.  On success — and on a duplicate
conflict reply — the device flag is set and `alreadyReviewedHere` becomes
true. -/
def addReview (st : DeviceState) (venueId : JStr) (form : ReviewForm)
    (res : InsertResult) : DeviceState × List ReviewDbCall :=
  if venueId = [] then (st, [])
  else if st.alreadyReviewedHere then (st, [])
  else if normalizeSpaces form.role = [] then (st, [])
  else if badNumField form.tipsWeekly then (st, [])
  else if badNumField form.hoursWeekly then (st, [])
  else
    match res with
    | InsertResult.ok =>
      (⟨markReviewedVenue st.reviewedFlags venueId, true⟩, [ReviewDbCall.insertReview venueId])
    | InsertResult.err code msg =>
      if isDuplicateError code msg then
        (⟨markReviewedVenue st.reviewedFlags venueId, true⟩, [ReviewDbCall.insertReview venueId])
      else (st, [ReviewDbCall.insertReview venueId])

/-- Later activity of the same device on the same venue page: further
submission attempts, possibly with page reloads in between (a reload
re-derives `alreadyReviewedHere` from the device flags). -/
inductive PageEvent
  | attempt (form : ReviewForm) (res : InsertResult)
  | reload
deriving DecidableEq

def runEvents (venueId : JStr) : DeviceState → List PageEvent → DeviceState × List ReviewDbCall
  | st, [] => (st, [])
  | st, PageEvent.reload :: evs => runEvents venueId (initPage st.reviewedFlags venueId) evs
  | st, PageEvent.attempt f r :: evs =>
    let p := addReview st venueId f r
    let q := runEvents venueId p.1 evs
    (q.1, p.2 ++ q.2)

/-- The reviewed flag for this venue is durably set on the device. -/
def Flagged (st : DeviceState) (venueId : JStr) : Prop :=
  st.alreadyReviewedHere = true ∧ venueId ∈ st.reviewedFlags

instance (st : DeviceState) (venueId : JStr) : Decidable (Flagged st venueId) := by
  unfold Flagged
  exact inferInstance

theorem addReview_flagged_noop (venueId : JStr) {st : DeviceState}
    (h : st.alreadyReviewedHere = true) (f : ReviewForm) (r : InsertResult) :
    addReview st venueId f r = (st, []) := by
  unfold addReview
  by_cases hv : venueId = []
  · rw [if_pos hv]
  · rw [if_neg hv, if_pos h]

theorem runEvents_flagged_no_insert (venueId : JStr) :
    ∀ (evs : List PageEvent) (st : DeviceState), Flagged st venueId →
      (runEvents venueId st evs).2 = [] ∧ Flagged (runEvents venueId st evs).1 venueId := by
  intro evs
  induction evs with
  | nil => intro st h; exact ⟨rfl, h⟩
  | cons e rest ih =>
    intro st h
    cases e with
    | reload =>
      rw [runEvents]
      refine ih _ ⟨?_, h.2⟩
      show hasReviewedVenue st.reviewedFlags venueId = true
      unfold hasReviewedVenue
      exact decide_eq_true h.2
    | attempt f r =>
      rw [runEvents]
      have hstep := addReview_flagged_noop venueId h.1 f r
      simp only [hstep]
      obtain ⟨h1, h2⟩ := ih st h
      exact ⟨by rw [h1]; rfl, h2⟩

/-- C5: once a review submission for a venue has succeeded from a device
(the insert was issued and the backend accepted it), the device flag and the
`alreadyReviewedHere` state are set, and every subsequent submission attempt
for that venue from that device — across any interleaving of attempts and
page reloads — issues no further review insert. -/
theorem review_once_per_device (st : DeviceState) (venueId : JStr)
    (f : ReviewForm) (evs : List PageEvent) :
    (addReview st venueId f InsertResult.ok).2 ≠ [] →
      Flagged (addReview st venueId f InsertResult.ok).1 venueId ∧
      (runEvents venueId (addReview st venueId f InsertResult.ok).1 evs).2 = [] := by
  intro hins
  have hflag : Flagged (addReview st venueId f InsertResult.ok).1 venueId := by
    unfold addReview at hins ⊢
    by_cases hv : venueId = []
    · rw [if_pos hv] at hins
      exact absurd rfl hins
    · rw [if_neg hv] at hins ⊢
      by_cases halready : st.alreadyReviewedHere = true
      · rw [if_pos halready] at hins
        exact absurd rfl hins
      · rw [if_neg halready] at hins ⊢
        by_cases hrole : normalizeSpaces f.role = []
        · rw [if_pos hrole] at hins
          exact absurd rfl hins
        · rw [if_neg hrole] at hins ⊢
          by_cases htips : badNumField f.tipsWeekly = true
          · rw [if_pos htips] at hins
            exact absurd rfl hins
          · rw [if_neg htips] at hins ⊢
            by_cases hhours : badNumField f.hoursWeekly = true
            · rw [if_pos hhours] at hins
              exact absurd rfl hins
            · rw [if_neg hhours] at hins ⊢
              exact ⟨rfl, by unfold markReviewedVenue; exact List.mem_cons_self _ _⟩
  exact ⟨hflag, (runEvents_flagged_no_insert venueId evs _ hflag).1⟩

theorem review_once_per_device_witness :
    Flagged (addReview ⟨[], false⟩ (jstr "v1")
        ⟨jstr "server", [], [], false, [], true, [], jstr "pre-tax"⟩ InsertResult.ok).1
      (jstr "v1") ∧
    (runEvents (jstr "v1")
        (addReview ⟨[], false⟩ (jstr "v1")
          ⟨jstr "server", [], [], false, [], true, [], jstr "pre-tax"⟩ InsertResult.ok).1
        [PageEvent.attempt ⟨jstr "server", [], [], false, [], true, [], jstr "pre-tax"⟩
            InsertResult.ok,
          PageEvent.reload,
          PageEvent.attempt ⟨jstr "server", [], [], false, [], true, [], jstr "pre-tax"⟩
            InsertResult.ok]).2 = [] :=
  review_once_per_device ⟨[], false⟩ (jstr "v1")
    ⟨jstr "server", [], [], false, [], true, [], jstr "pre-tax"⟩ _ (by decide)

example : levenshtein (jstr "kitten") (jstr "sitting") = 3 := by decide
example : bestCitySuggestion (jstr "Jersesy City") [jstr "Jersey City", jstr "Hoboken"]
    = some (jstr "Jersey City") := by decide
example : bestCitySuggestion (jstr "NYC") [jstr "Jersey City", jstr "Hoboken"] = none := by
  decide
example : bestCitySuggestion (jstr "hoboken") [jstr "Jersey City", jstr "Hoboken"] = none := by
  decide
example : levenshtein (jstr "abc") (jstr "ABC") = 0 := by decide
example : normalizeSpaces (jstr "  a   b  ") = jstr "a b" := by decide
example : titleCase (jstr "jersey   city") = jstr "Jersey City" := by decide
example : titleCase (jstr "4a") = jstr "4a" := by decide

end KT
